import Mathlib

/-!
# Verification of the chess-puzzle trainer (`src/App.tsx`)

This development shallowly embeds the puzzle-progression core of the
repository: the move-notation normalizer `toSanSequence`, the puzzle
session state machine of the `ChessPuzzle` component (`onDrop`, `undo`,
`reset`, `playExpectedMove`, `showHint`, and the `PuzzleLoader`
callbacks), and the slice of the chess.js rules-engine capability that
those functions consume (`new Chess(fen)`, `move`, `undo`, `fen`, SAN
rendering with disambiguation and check/mate suffixes).

Conventions:
* squares are numbered 0..63 with index `rank * 8 + file`
  (file 0 = file a, rank 0 = rank 1);
* a board is a list of 8 ranks (rank 1 first), each a list of 8 cells;
* chess.js `move` returning `null` on an illegal move is modelled as
  `Option`, and a thrown load-time error as `Except String`.
-/

namespace ChessPuzzleApp

/-- Decidable equality for `Except`, needed to evaluate the normalizer's
results on concrete inputs. -/
instance {ε α : Type} [DecidableEq ε] [DecidableEq α] : DecidableEq (Except ε α)
  | .error a, .error b =>
    if h : a = b then .isTrue (by rw [h])
    else .isFalse (by intro hc; cases hc; exact h rfl)
  | .error _, .ok _ => .isFalse (by intro hc; cases hc)
  | .ok _, .error _ => .isFalse (by intro hc; cases hc)
  | .ok a, .ok b =>
    if h : a = b then .isTrue (by rw [h])
    else .isFalse (by intro hc; cases hc; exact h rfl)

/-- Piece kinds, as in chess.js (`p`, `n`, `b`, `r`, `q`, `k`). -/
inductive PieceKind where
  | pawn | knight | bishop | rook | queen | king
deriving DecidableEq, Repr

/-- Side to move / piece colour. -/
inductive Color where
  | white | black
deriving DecidableEq, Repr

def Color.flip : Color → Color
  | .white => .black
  | .black => .white

/-- A coloured piece. -/
structure CPiece where
  color : Color
  kind : PieceKind
deriving DecidableEq, Repr

/-- One rank: 8 cells, file a first. -/
abbrev Rank := List (Option CPiece)

/-- Board: 8 ranks, rank 1 first. -/
abbrev Board := List Rank

/-- A position, as the structured content of a FEN string
(piece placement, side to move, castling rights, en-passant square,
halfmove clock, fullmove number). -/
structure Position where
  board : Board
  turn : Color
  castleWK : Bool
  castleWQ : Bool
  castleBK : Bool
  castleBQ : Bool
  ep : Option Nat
  halfmove : Nat
  fullmove : Nat
deriving DecidableEq, Repr

/-- A move as chess.js represents it internally: origin square, target
square, and an optional promotion piece. -/
structure ChessMove where
  fromSq : Nat
  toSq : Nat
  promo : Option PieceKind
deriving DecidableEq, Repr

/-- Cell lookup by square number (0..63). -/
def boardGet (b : Board) (s : Nat) : Option CPiece :=
  ((b.getD (s / 8) []).getD (s % 8) none)

/-- Cell update by square number (0..63). -/
def boardSet (b : Board) (s : Nat) (c : Option CPiece) : Board :=
  b.set (s / 8) ((b.getD (s / 8) []).set (s % 8) c)

/-! ## FEN parsing (`new Chess(fen)` structural validation) -/

def pieceOfChar : Char → Option CPiece
  | 'P' => some ⟨.white, .pawn⟩
  | 'N' => some ⟨.white, .knight⟩
  | 'B' => some ⟨.white, .bishop⟩
  | 'R' => some ⟨.white, .rook⟩
  | 'Q' => some ⟨.white, .queen⟩
  | 'K' => some ⟨.white, .king⟩
  | 'p' => some ⟨.black, .pawn⟩
  | 'n' => some ⟨.black, .knight⟩
  | 'b' => some ⟨.black, .bishop⟩
  | 'r' => some ⟨.black, .rook⟩
  | 'q' => some ⟨.black, .queen⟩
  | 'k' => some ⟨.black, .king⟩
  | _ => none

/-- Split a character list at every occurrence of `sep` (the FEN
separators `" "` and `"/"` are single characters). -/
def splitChars (sep : Char) : List Char → List (List Char)
  | [] => [[]]
  | c :: cs =>
    let r := splitChars sep cs
    if c = sep then [] :: r
    else
      match r with
      | h :: t => (c :: h) :: t
      | [] => [[c]]

def splitOnChar (s : String) (sep : Char) : List String :=
  (splitChars sep s.data).map fun cs => ⟨cs⟩

/-- Parse one FEN rank fragment into its 8 cells (file a first). -/
def parseRankChars : List Char → Option Rank
  | [] => some []
  | c :: cs =>
    if c.isDigit then
      let n := c.toNat - '0'.toNat
      if 1 ≤ n ∧ n ≤ 8 then
        (parseRankChars cs).map (fun r => List.replicate n none ++ r)
      else none
    else
      match pieceOfChar c with
      | some pc => (parseRankChars cs).map (fun r => some pc :: r)
      | none => none

def parseRank (s : String) : Option Rank :=
  match parseRankChars s.data with
  | some r => if r.length = 8 then some r else none
  | none => none

/-- Parse the piece-placement field: ranks 8..1 separated by `/`;
the resulting board lists rank 1 first. -/
def parseBoard (s : String) : Option Board :=
  let parts := splitOnChar s '/'
  if parts.length = 8 then
    (parts.mapM parseRank).map List.reverse
  else none

def parseTurn : String → Option Color
  | "w" => some .white
  | "b" => some .black
  | _ => none

def parseCastle (s : String) : Option (Bool × Bool × Bool × Bool) :=
  if s = "-" then some (false, false, false, false)
  else if s ≠ "" ∧ s.data.all (fun c => c = 'K' ∨ c = 'Q' ∨ c = 'k' ∨ c = 'q') then
    some (s.data.contains 'K', s.data.contains 'Q', s.data.contains 'k', s.data.contains 'q')
  else none

/-- Square name (e.g. `"e3"`) to square number. -/
def parseSquare (s : String) : Option Nat :=
  match s.data with
  | [f, r] =>
    if 'a' ≤ f ∧ f ≤ 'h' ∧ '1' ≤ r ∧ r ≤ '8' then
      some ((r.toNat - '1'.toNat) * 8 + (f.toNat - 'a'.toNat))
    else none
  | _ => none

def parseEp (s : String) : Option (Option Nat) :=
  if s = "-" then some none
  else (parseSquare s).map some

def parseNatStr (s : String) : Option Nat :=
  if s ≠ "" ∧ s.data.all Char.isDigit then
    some (s.data.foldl (fun n c => n * 10 + (c.toNat - '0'.toNat)) 0)
  else none

/-- Structural FEN validation and parsing, modelling the chess.js
constructor `new Chess(fen)` (which throws on a malformed FEN). -/
def parseFen (s : String) : Option Position :=
  match splitOnChar s ' ' with
  | [b, t, c, e, h, f] =>
    match parseBoard b, parseTurn t, parseCastle c, parseEp e,
          parseNatStr h, parseNatStr f with
    | some board, some turn, some ⟨wk, wq, bk, bq⟩, some ep, some hm, some fm =>
      some ⟨board, turn, wk, wq, bk, bq, ep, hm, fm⟩
    | _, _, _, _, _, _ => none
  | _ => none

/-! ## Geometry and attack maps -/

def fileOf (s : Nat) : Nat := s % 8

def rankOf (s : Nat) : Nat := s / 8

/-- Shift a square by a (file, rank) delta, `none` when off the board. -/
def shiftSq (s : Nat) (df dr : Int) : Option Nat :=
  let f : Int := (fileOf s : Nat) + df
  let r : Int := (rankOf s : Nat) + dr
  if 0 ≤ f ∧ f < 8 ∧ 0 ≤ r ∧ r < 8 then some (r * 8 + f).toNat else none

def knightDeltas : List (Int × Int) :=
  [(1, 2), (2, 1), (2, -1), (1, -2), (-1, -2), (-2, -1), (-2, 1), (-1, 2)]

def kingDeltas : List (Int × Int) :=
  [(0, 1), (1, 1), (1, 0), (1, -1), (0, -1), (-1, -1), (-1, 0), (-1, 1)]

def bishopDirs : List (Int × Int) := [(1, 1), (1, -1), (-1, -1), (-1, 1)]

def rookDirs : List (Int × Int) := [(0, 1), (1, 0), (0, -1), (-1, 0)]

def pawnCapDirs : Color → List (Int × Int)
  | .white => [(-1, 1), (1, 1)]
  | .black => [(-1, -1), (1, -1)]

/-- Walk a ray: the empty squares passed over plus the first occupied one. -/
def slideRay (b : Board) (s : Nat) (df dr : Int) : Nat → List Nat
  | 0 => []
  | fuel + 1 =>
    match shiftSq s df dr with
    | none => []
    | some t =>
      match boardGet b t with
      | none => t :: slideRay b t df dr fuel
      | some _ => [t]

def jumpSquares (s : Nat) (ds : List (Int × Int)) : List Nat :=
  ds.filterMap fun d => shiftSq s d.1 d.2

def slideSquares (b : Board) (s : Nat) (dirs : List (Int × Int)) : List Nat :=
  dirs.flatMap fun d => slideRay b s d.1 d.2 7

/-- The squares attacked by piece `pc` standing on `s`. -/
def attackSquares (b : Board) (s : Nat) (pc : CPiece) : List Nat :=
  match pc.kind with
  | .pawn => jumpSquares s (pawnCapDirs pc.color)
  | .knight => jumpSquares s knightDeltas
  | .king => jumpSquares s kingDeltas
  | .bishop => slideSquares b s bishopDirs
  | .rook => slideSquares b s rookDirs
  | .queen => slideSquares b s (bishopDirs ++ rookDirs)

def allSquares : List Nat := List.range 64

/-- Is square `sq` attacked by any piece of colour `c`? -/
def attacked (b : Board) (sq : Nat) (c : Color) : Bool :=
  allSquares.any fun s =>
    match boardGet b s with
    | some pc => pc.color = c && (attackSquares b s pc).contains sq
    | none => false

def kingSquare (b : Board) (c : Color) : Option Nat :=
  allSquares.find? fun s => boardGet b s = some ⟨c, .king⟩

def inCheck (p : Position) (c : Color) : Bool :=
  match kingSquare p.board c with
  | some k => attacked p.board k c.flip
  | none => false

/-! ## Move application (chess.js `make_move`) -/

/-- Square of the pawn removed by an en-passant capture. -/
def epCapturedSq (m : ChessMove) : Nat := rankOf m.fromSq * 8 + fileOf m.toSq

def isEpCapture (p : Position) (m : ChessMove) : Bool :=
  match boardGet p.board m.fromSq with
  | some ⟨_, .pawn⟩ => p.ep = some m.toSq && fileOf m.fromSq ≠ fileOf m.toSq
  | _ => false

def isCaptureMove (p : Position) (m : ChessMove) : Bool :=
  (boardGet p.board m.toSq).isSome || isEpCapture p m

def applyMove (p : Position) (m : ChessMove) : Position :=
  match boardGet p.board m.fromSq with
  | none => p
  | some pc =>
    let cap := isCaptureMove p m
    let b1 := boardSet p.board m.fromSq none
    let placed : CPiece :=
      match m.promo with
      | some k => ⟨pc.color, k⟩
      | none => pc
    let b2 := boardSet b1 m.toSq (some placed)
    let b3 := if isEpCapture p m then boardSet b2 (epCapturedSq m) none else b2
    let homeRank := rankOf m.fromSq * 8
    let b4 :=
      if pc.kind = .king ∧ (fileOf m.toSq : Int) - (fileOf m.fromSq : Int) = 2 then
        boardSet (boardSet b3 (homeRank + 7) none) (homeRank + 5) (some ⟨pc.color, .rook⟩)
      else if pc.kind = .king ∧ (fileOf m.toSq : Int) - (fileOf m.fromSq : Int) = -2 then
        boardSet (boardSet b3 (homeRank + 0) none) (homeRank + 3) (some ⟨pc.color, .rook⟩)
      else b3
    let newEp : Option Nat :=
      if pc.kind = .pawn ∧ (rankOf m.toSq : Int) - (rankOf m.fromSq : Int) = 2 then
        some (m.fromSq + 8)
      else if pc.kind = .pawn ∧ (rankOf m.fromSq : Int) - (rankOf m.toSq : Int) = 2 then
        some (m.fromSq - 8)
      else none
    { board := b4
      turn := p.turn.flip
      castleWK := p.castleWK && !(m.fromSq = 4 ∨ m.fromSq = 7 ∨ m.toSq = 7)
      castleWQ := p.castleWQ && !(m.fromSq = 4 ∨ m.fromSq = 0 ∨ m.toSq = 0)
      castleBK := p.castleBK && !(m.fromSq = 60 ∨ m.fromSq = 63 ∨ m.toSq = 63)
      castleBQ := p.castleBQ && !(m.fromSq = 60 ∨ m.fromSq = 56 ∨ m.toSq = 56)
      ep := newEp
      halfmove := if pc.kind = .pawn ∨ cap then 0 else p.halfmove + 1
      fullmove := if p.turn = .black then p.fullmove + 1 else p.fullmove }

/-! ## Move generation (chess.js `generate_moves`) -/

def pawnStartRank : Color → Nat
  | .white => 1
  | .black => 6

def lastRank : Color → Nat
  | .white => 7
  | .black => 0

def pawnDir : Color → Int
  | .white => 1
  | .black => -1

def promoKinds : List PieceKind := [.queen, .rook, .bishop, .knight]

def pawnMoves (p : Position) (s : Nat) (c : Color) : List ChessMove :=
  let pushes :=
    match shiftSq s 0 (pawnDir c) with
    | some t1 =>
      if boardGet p.board t1 = none then
        [t1] ++
          (if rankOf s = pawnStartRank c then
            match shiftSq s 0 (2 * pawnDir c) with
            | some t2 => if boardGet p.board t2 = none then [t2] else []
            | none => []
          else [])
      else []
    | none => []
  let caps := (jumpSquares s (pawnCapDirs c)).filter fun t =>
    (match boardGet p.board t with
     | some pc => pc.color = c.flip
     | none => false) || p.ep = some t
  (pushes ++ caps).flatMap fun t =>
    if rankOf t = lastRank c then promoKinds.map fun k => ⟨s, t, some k⟩
    else [⟨s, t, none⟩]

def nonPawnMoves (p : Position) (s : Nat) (pc : CPiece) : List ChessMove :=
  ((attackSquares p.board s pc).filter fun t =>
    match boardGet p.board t with
    | some q => q.color = pc.color.flip
    | none => true).map fun t => ⟨s, t, none⟩

def castleMoves (p : Position) (c : Color) : List ChessMove :=
  let base := (match c with | .white => 0 | .black => 7) * 8
  let e := base + 4
  let enemy := c.flip
  let kingHome := boardGet p.board e == some ⟨c, .king⟩
  let ksRight := match c with | .white => p.castleWK | .black => p.castleBK
  let qsRight := match c with | .white => p.castleWQ | .black => p.castleBQ
  let ksOk := ksRight && kingHome
    && (boardGet p.board (base + 5)).isNone && (boardGet p.board (base + 6)).isNone
    && (boardGet p.board (base + 7) == some ⟨c, .rook⟩)
    && !attacked p.board e enemy && !attacked p.board (base + 5) enemy
  let qsOk := qsRight && kingHome
    && (boardGet p.board (base + 3)).isNone && (boardGet p.board (base + 2)).isNone
    && (boardGet p.board (base + 1)).isNone
    && (boardGet p.board (base + 0) == some ⟨c, .rook⟩)
    && !attacked p.board e enemy && !attacked p.board (base + 3) enemy
  (if ksOk then [ChessMove.mk e (base + 6) none] else []) ++
  (if qsOk then [ChessMove.mk e (base + 2) none] else [])

def pseudoMoves (p : Position) : List ChessMove :=
  (allSquares.flatMap fun s =>
    match boardGet p.board s with
    | some pc =>
      if pc.color = p.turn then
        match pc.kind with
        | .pawn => pawnMoves p s pc.color
        | _ => nonPawnMoves p s pc
      else []
    | none => []) ++ castleMoves p p.turn

/-- Legal moves: pseudo-legal moves that do not leave the mover in check. -/
def legalMoves (p : Position) : List ChessMove :=
  (pseudoMoves p).filter fun m => !inCheck (applyMove p m) p.turn

/-! ## SAN rendering (chess.js `move_to_san`) -/

def fileChar (f : Nat) : Char := ['a', 'b', 'c', 'd', 'e', 'f', 'g', 'h'].getD f 'a'

def rankChar (r : Nat) : Char := ['1', '2', '3', '4', '5', '6', '7', '8'].getD r '1'

def squareChars (s : Nat) : List Char := [fileChar (fileOf s), rankChar (rankOf s)]

def kindChar : PieceKind → Char
  | .pawn => 'P'
  | .knight => 'N'
  | .bishop => 'B'
  | .rook => 'R'
  | .queen => 'Q'
  | .king => 'K'

/-- chess.js `get_disambiguator` over the legal-move list `ms`. -/
def disambig (ms : List ChessMove) (b : Board) (m : ChessMove) (pc : CPiece) : List Char :=
  let others := ms.filter fun m' =>
    decide (m'.fromSq ≠ m.fromSq ∧ m'.toSq = m.toSq ∧ boardGet b m'.fromSq = some pc)
  if others.isEmpty then []
  else
    let sameFile := others.any fun m' => fileOf m'.fromSq = fileOf m.fromSq
    let sameRank := others.any fun m' => rankOf m'.fromSq = rankOf m.fromSq
    if sameFile ∧ sameRank then squareChars m.fromSq
    else if sameFile then [rankChar (rankOf m.fromSq)]
    else [fileChar (fileOf m.fromSq)]

/-- The SAN body: everything except the promotion part and the
check/checkmate suffix. Takes the legal-move list for disambiguation. -/
def sanBodyAux (ms : List ChessMove) (p : Position) (m : ChessMove) : List Char :=
  match boardGet p.board m.fromSq with
  | none => []
  | some pc =>
    if pc.kind = .king ∧ (fileOf m.toSq : Int) - (fileOf m.fromSq : Int) = 2 then
      ['O', '-', 'O']
    else if pc.kind = .king ∧ (fileOf m.toSq : Int) - (fileOf m.fromSq : Int) = -2 then
      ['O', '-', 'O', '-', 'O']
    else
      (if pc.kind = .pawn then [] else kindChar pc.kind :: disambig ms p.board m pc) ++
      (if isCaptureMove p m then
        (if pc.kind = .pawn then [fileChar (fileOf m.fromSq)] else []) ++ ['x']
      else []) ++
      squareChars m.toSq

def promoChars (m : ChessMove) : List Char :=
  match m.promo with
  | some k => ['=', kindChar k]
  | none => []

/-- SAN without the check/mate suffix. -/
def sanCore (ms : List ChessMove) (p : Position) (m : ChessMove) : List Char :=
  sanBodyAux ms p m ++ promoChars m

/-- Suffix characters: `+` when the move gives check, `#` when it mates. -/
def checkChars (p : Position) (m : ChessMove) : List Char :=
  let p' := applyMove p m
  if inCheck p' p'.turn then
    if legalMoves p' = [] then ['#'] else ['+']
  else []

/-- Full SAN of a legal move, as chess.js `move().san` reports it. -/
def sanOf (p : Position) (m : ChessMove) : String :=
  ⟨sanCore (legalMoves p) p m ++ checkChars p m⟩

/-! ## Decoration stripping and move lookup -/

def cleanChars (cs : List Char) : List Char :=
  cs.filter fun c => !(c = '+' ∨ c = '#' ∨ c = '!' ∨ c = '?')

/-- Function `clean` from `onDrop`: `s.replace(/[+#!?]+/g, "")`. -/
def clean (s : String) : String := ⟨cleanChars s.data⟩

def sanStripChars (cs : List Char) : List Char :=
  (cleanChars cs).filter fun c => !(c = '=')

/-- chess.js `stripped_san`: decorations and the `=` of a promotion
removed; the lenient SAN parser matches tokens modulo this stripping. -/
def sanStrip (s : String) : String := ⟨sanStripChars s.data⟩

/-- A character is plain when it is neither a decoration (`+ # ! ?`)
nor the promotion marker `=`; every character of a SAN body is plain. -/
abbrev sanPlainChar (c : Char) : Prop :=
  c ≠ '=' ∧ c ≠ '+' ∧ c ≠ '#' ∧ c ≠ '!' ∧ c ≠ '?'

/-- chess.js `move(token, sloppy)`: the first legal move whose stripped
SAN equals the stripped token (`null` — here `none` — if there is none).
The check/mate suffix is removed by stripping, so matching on `sanCore`
is exact. -/
def sanMove (p : Position) (t : String) : Option ChessMove :=
  let ms := legalMoves p
  ms.find? fun m => sanStripChars (sanCore ms p m) == sanStripChars t.data

/-- chess.js `move({from, to, promotion})`: the matching legal move; the
`promotion` field only has to agree on promotion moves and is ignored
otherwise. -/
def tryMoveFromTo (p : Position) (f t : Nat) (promo : Option PieceKind) : Option ChessMove :=
  (legalMoves p).find? fun m =>
    decide (m.fromSq = f ∧ m.toSq = t ∧ (m.promo = none ∨ m.promo = promo))

/-! ## The move-notation normalizer `toSanSequence` -/

def isFileChar (c : Char) : Bool := 'a' ≤ c && c ≤ 'h'

def isRankChar (c : Char) : Bool := '1' ≤ c && c ≤ '8'

def isPromoChar (c : Char) : Bool := c = 'q' || c = 'r' || c = 'b' || c = 'n'

/-- The coordinate-token test from `toSanSequence`:
`/^[a-h][1-8][a-h][1-8][qrbn]?$/`. -/
def isUciToken (t : String) : Bool :=
  match t.data with
  | [a, b, c, d] => isFileChar a && isRankChar b && isFileChar c && isRankChar d
  | [a, b, c, d, e] =>
    isFileChar a && isRankChar b && isFileChar c && isRankChar d && isPromoChar e
  | _ => false

def promoOfChar : Char → Option PieceKind
  | 'q' => some .queen
  | 'r' => some .rook
  | 'b' => some .bishop
  | 'n' => some .knight
  | _ => none

/-- The coordinate interpretation: `token.slice(0,2)`, `token.slice(2,4)`
and `token[4]` fed to chess.js `move({from, to, promotion})`. -/
def uciMove (p : Position) (t : String) : Option ChessMove :=
  match parseSquare ⟨t.data.take 2⟩, parseSquare ⟨(t.data.drop 2).take 2⟩ with
  | some f, some g => tryMoveFromTo p f g ((t.data.drop 4).head?.bind promoOfChar)
  | _, _ => none

def invalidMsg (t : String) : String := "Invalid solution move: " ++ t

/-- Token-by-token normalization: canonical (SAN) interpretation first,
coordinate interpretation second, error naming the token otherwise. -/
def toSanSeqAux : Position → List String → Except String (List String)
  | _, [] => .ok []
  | p, t :: ts =>
    match sanMove p t with
    | some m => (toSanSeqAux (applyMove p m) ts).map fun rest => sanOf p m :: rest
    | none =>
      if isUciToken t then
        match uciMove p t with
        | some m => (toSanSeqAux (applyMove p m) ts).map fun rest => sanOf p m :: rest
        | none => .error (invalidMsg t)
      else .error (invalidMsg t)

/-- Normalizer `toSanSequence(initialFen, seq)`: the scratch `new Chess(initialFen)`
(throwing on a malformed FEN), advanced token by token. -/
def toSanSequence (initialFen : String) (seq : List String) : Except String (List String) :=
  match parseFen initialFen with
  | some p => toSanSeqAux p seq
  | none => .error "Invalid FEN"

/-! ## chess.js instances: position plus move history

`new Chess(fen)` starts from the given position with an EMPTY history,
and `undo()` pops the most recent history entry, returning `null` when
there is none. The component's `undo` builds a fresh instance from the
stored FEN, so the history it sees is always empty. -/

structure ChessInst where
  pos : Position
  hist : List (Position × ChessMove)
deriving DecidableEq, Repr

def ChessInst.ofFen (p : Position) : ChessInst := ⟨p, []⟩

def ChessInst.undoInst : ChessInst → Option (ChessInst × ChessMove)
  | ⟨_, []⟩ => none
  | ⟨_, (q, m) :: rest⟩ => some (⟨q, rest⟩, m)

/-! ## The puzzle session state machine (`ChessPuzzle` component) -/

/-- Structure `CoachItem` from the source: one move-log entry. -/
structure CoachItem where
  ok : Bool
  text : String
deriving DecidableEq, Repr

/-- Structure `PuzzleConfig` from the source. -/
structure PuzzleConfig where
  title : String
  subtitle : String
  orientation : String
  fen : String
  solution : List String
  coachNotes : List String
deriving DecidableEq, Repr

def DEFAULT_PUZZLE : PuzzleConfig :=
  { title := "Daily Puzzle (Demo)"
    subtitle := "White to move - Mate in 1"
    orientation := "white"
    fen := "7k/5Q2/7K/8/8/8/8/8 w - - 0 1"
    solution := ["Qg7#"]
    coachNotes := ["Qg7#"] }

/-- The React state cells of `ChessPuzzle`. The board position is held
structurally; the source holds its FEN string and re-parses it through
`new Chess(fen)` at every operation, which round-trips. -/
structure SessionState where
  puzzle : PuzzleConfig
  fen : Position
  ply : Nat
  wrong : Bool
  arrows : List (Nat × Nat)
  solved : Bool
  coach : List CoachItem
deriving DecidableEq, Repr

/-- The `useMemo` value
`expectedSequence = toSanSequence(puzzle.fen, puzzle.solution)`. -/
def expectedSeq (st : SessionState) : Except String (List String) :=
  toSanSequence st.puzzle.fen st.puzzle.solution

/-- The expected line as a plain list. When normalization fails the
component itself crashes while rendering (the `useMemo` throw), so in
every live state the default `[]` is never consulted. -/
def expectedListD (st : SessionState) : List String :=
  (expectedSeq st).toOption.getD []

/-- Fresh session for a configuration whose FEN parses to `p0`. -/
def mkSession (cfg : PuzzleConfig) (p0 : Position) : SessionState :=
  { puzzle := cfg, fen := p0, ply := 0, wrong := false, arrows := []
    solved := false, coach := [] }

/-- Log text `puzzle.coachNotes?.[ply] || san` (an empty string is falsy). -/
def coachText (st : SessionState) (san : String) : String :=
  match st.puzzle.coachNotes.get? st.ply with
  | some s => if s = "" then san else s
  | none => san

/-- Operation `reset()`: back to the puzzle's start position, cleared progress.
(`setFen(puzzle.fen)`; the puzzle FEN always parses in live states, the
fallback is never consulted.) -/
def reset (st : SessionState) : SessionState :=
  { st with
    fen := (parseFen st.puzzle.fen).getD st.fen
    ply := 0, wrong := false, arrows := [], solved := false, coach := [] }

/-- Operation `undo()` as written: builds a FRESH chess.js instance from the
stored FEN (`new Chess(fen)`), whose history is empty, and calls
`undo()` on it; the body runs only `if (undone)`. -/
def undo (st : SessionState) : SessionState :=
  match (ChessInst.ofFen st.fen).undoInst with
  | none => st
  | some (ch, _) =>
    { st with
      ply := st.ply - 1
      coach := st.coach.dropLast
      fen := ch.pos
      wrong := false, solved := false, arrows := [] }

/-- Operation `playExpectedMove()`. -/
def playExpectedMove (st : SessionState) : SessionState :=
  let expected := expectedListD st
  if st.ply ≥ expected.length then st
  else
    match sanMove st.fen (expected.getD st.ply "") with
    | none => st
    | some m =>
      { st with
        fen := applyMove st.fen m
        ply := st.ply + 1
        coach := st.coach ++ [⟨true, coachText st (sanOf st.fen m)⟩]
        solved := st.solved || (st.ply + 1 == expected.length) }

/-- Operation `showHint()`: draw the expected move's from/to arrow; any failure
(`expectedSequence[ply]` undefined, or an unparsable move) is swallowed. -/
def showHint (st : SessionState) : SessionState :=
  match (expectedListD st).get? st.ply with
  | none => st
  | some e =>
    match sanMove st.fen e with
    | none => st
    | some m => { st with arrows := [(m.fromSq, m.toSq)] }

/-- Condition `const correct = expectedSan && clean(expectedSan) === clean(playedSan)`
(`expectedSan` is `undefined`, hence falsy, when `ply` is out of range). -/
def correctDrop (st : SessionState) (playedSan : String) : Bool :=
  match (expectedListD st).get? st.ply with
  | some e => clean e == clean playedSan
  | none => false

/-- The accepting branch of `onDrop`: commit the position, advance the
ply, append the log entry, clear the arrows, set `solved` when the line
is complete. -/
def acceptMove (st : SessionState) (mv : ChessMove) (playedSan : String) : SessionState :=
  { st with
    fen := applyMove st.fen mv
    ply := st.ply + 1
    coach := st.coach ++ [⟨true, coachText st playedSan⟩]
    arrows := []
    solved := st.solved || (st.ply + 1 == (expectedListD st).length) }

/-- Handler `onDrop(sourceSquare, targetSquare)` itself. Returns
the updated state and the boolean handed back to the board. The move is
always attempted with `promotion: "q"`. -/
def onDrop (st : SessionState) (src tgt : Nat) : SessionState × Bool :=
  match tryMoveFromTo st.fen src tgt (some .queen) with
  | none => (st, false)
  | some mv =>
    if correctDrop st (sanOf st.fen mv) then
      (acceptMove st mv (sanOf st.fen mv), true)
    else
      ({ st with wrong := true }, false)

/-- A user move submission. The board forwards drops only while
`arePiecesDraggable={!solved}`, so a solved session rejects the attempt
administratively without invoking `onDrop`. -/
def submitMove (st : SessionState) (src tgt : Nat) : SessionState × Bool :=
  if st.solved then (st, false) else onDrop st src tgt

/-- Loader callback `onLoad` of `PuzzleLoader`: validate the FEN via the chess.js
constructor; on success replace the puzzle FEN and reset progress
(`arrows` is NOT cleared here, and the solution is NOT revalidated); on
failure (`alert`) leave all state untouched. `true` on success. -/
def onLoad (st : SessionState) (f : String) : SessionState × Bool :=
  match parseFen f with
  | none => (st, false)
  | some p =>
    ({ st with
       puzzle := { st.puzzle with fen := f }
       fen := p
       ply := 0, solved := false, wrong := false, coach := [] }, true)

/-- Loader callback `onLoadSolution` of `PuzzleLoader`: validate the tokens against the
active puzzle FEN via `toSanSequence`; on success replace the solution
and reset progress (the board position `fen` is NOT reset); on failure
(`alert`) leave all state untouched. `true` on success. -/
def onLoadSolution (st : SessionState) (seq : List String) : SessionState × Bool :=
  match toSanSequence st.puzzle.fen seq with
  | .error _ => (st, false)
  | .ok _ =>
    ({ st with
       puzzle := { st.puzzle with solution := seq }
       ply := 0, solved := false, wrong := false, coach := [], arrows := [] }, true)

/-! ## Concrete sessions and verification apparatus -/

def emptyPos : Position :=
  ⟨List.replicate 8 (List.replicate 8 none), .white, false, false, false, false, none, 0, 0⟩

/-- The demo start position (`DEFAULT_PUZZLE.fen` parsed). -/
def demoPos : Position := (parseFen DEFAULT_PUZZLE.fen).getD emptyPos

/-- The initial session of the demo puzzle. -/
def demoInit : SessionState := mkSession DEFAULT_PUZZLE demoPos

/-- An under-promotion puzzle used as a witness: white pawn a7, white
king a1, black king h8, solution `a8=R`. -/
def underPromoPuzzle : PuzzleConfig :=
  { title := "Under-promotion"
    subtitle := "White to move"
    orientation := "white"
    fen := "7k/P7/8/8/8/8/8/K7 w - - 0 1"
    solution := ["a8=R"]
    coachNotes := [] }

def underPromoPos : Position := (parseFen underPromoPuzzle.fen).getD emptyPos

def underPromoInit : SessionState := mkSession underPromoPuzzle underPromoPos

/-- A structurally valid position (two lone kings) against which the
demo solution `["Qg7#"]` cannot normalize. -/
def badLoadFen : String := "8/8/8/8/8/8/8/K6k w - - 0 1"

/-- Loading an empty solution list into the demo session: a reachable
state with `expectedLine` of length 0. -/
def c9StateA : SessionState := (onLoadSolution demoInit []).1

/-- Loading a solution mid-game (after the demo move was played): the
board is left at the mid-game position while progress is cleared. -/
def c9StateB : SessionState :=
  (onLoadSolution (submitMove demoInit 53 54).1 ["Qg7#"]).1

/-- Submit a list of from/to drops in order. -/
def submitLine (st : SessionState) : List (Nat × Nat) → SessionState
  | [] => st
  | d :: ds => submitLine (submitMove st d.1 d.2).1 ds

/-- All the drops in the list are accepted in order. -/
def submitLineOk (st : SessionState) : List (Nat × Nat) → Bool
  | [] => true
  | d :: ds =>
    let r := submitMove st d.1 d.2
    r.2 && submitLineOk r.1 ds

/-- Relation `LogReplay p es q`: the expected-line prefix `es` can be realised by
a sequence of legal moves taking `p` to `q`, each matching its entry
modulo decoration stripping — i.e. `q` is `p` with a correct-move log
for `es` applied in order. -/
inductive LogReplay : Position → List String → Position → Prop
  | nil (p : Position) : LogReplay p [] p
  | cons {p q : Position} {e : String} {es : List String} (m : ChessMove)
      (hm : m ∈ legalMoves p)
      (hsan : sanStrip (sanOf p m) = sanStrip e)
      (hrest : LogReplay (applyMove p m) es q) :
      LogReplay p (e :: es) q

/-- The session invariant that actually holds (C9, amended):
`ply` counts the correct log entries, the current position is the start
position with the logged correct moves applied, and `solved` holds iff
the whole (nonempty) expected line has been played. -/
def SessionInv (st : SessionState) : Prop :=
  st.ply = (st.coach.filter (·.ok)).length ∧
  ∃ p0, parseFen st.puzzle.fen = some p0 ∧
    ∀ L, expectedSeq st = .ok L →
      st.ply ≤ L.length ∧
      LogReplay p0 (L.take st.ply) st.fen ∧
      (st.solved = true ↔ (st.ply = L.length ∧ 0 < L.length))

/-- The invariant exactly as claimed (C9, original): `solved` iff
`plyIndex = len(expectedLine)` with no nonemptiness proviso, and the
position always the start position plus the logged moves. -/
def ClaimedInv (st : SessionState) : Prop :=
  st.ply = (st.coach.filter (·.ok)).length ∧
  ∃ p0, parseFen st.puzzle.fen = some p0 ∧
    ∀ L, expectedSeq st = .ok L →
      LogReplay p0 (L.take st.ply) st.fen ∧
      (st.solved = true ↔ st.ply = L.length)

/-- States reachable through the component's operations, from a session
freshly created on a structurally valid puzzle FEN. -/
inductive Reachable : SessionState → Prop
  | init (cfg : PuzzleConfig) (p0 : Position) (h : parseFen cfg.fen = some p0) :
      Reachable (mkSession cfg p0)
  | submit {st} (src tgt : Nat) : Reachable st → Reachable (submitMove st src tgt).1
  | undoStep {st} : Reachable st → Reachable (undo st)
  | resetStep {st} : Reachable st → Reachable (reset st)
  | hint {st} : Reachable st → Reachable (showHint st)
  | play {st} : Reachable st → Reachable (playExpectedMove st)
  | load {st} (f : String) : Reachable st → Reachable (onLoad st f).1
  | loadSol {st} (seq : List String) : Reachable st →
      Reachable (onLoadSolution st seq).1

/-- Reachability with solution loads restricted to the start position
(`ply = 0` and the board at the puzzle's start) — the restriction forced
by `onLoadSolution` not resetting the board FEN. -/
inductive ReachableR : SessionState → Prop
  | init (cfg : PuzzleConfig) (p0 : Position) (h : parseFen cfg.fen = some p0) :
      ReachableR (mkSession cfg p0)
  | submit {st} (src tgt : Nat) : ReachableR st → ReachableR (submitMove st src tgt).1
  | undoStep {st} : ReachableR st → ReachableR (undo st)
  | resetStep {st} : ReachableR st → ReachableR (reset st)
  | hint {st} : ReachableR st → ReachableR (showHint st)
  | play {st} : ReachableR st → ReachableR (playExpectedMove st)
  | load {st} (f : String) : ReachableR st → ReachableR (onLoad st f).1
  | loadSol {st} (seq : List String) : ReachableR st →
      st.ply = 0 → parseFen st.puzzle.fen = some st.fen →
      ReachableR (onLoadSolution st seq).1

/-! ## Basic lemmas -/

/-- Operation `undo` is the identity on every session: `new Chess(fen)` has an
empty history, so `ch.undo()` returns `null` and the guarded body never
runs. -/
lemma undo_eq_id (st : SessionState) : undo st = st := rfl

lemma expectedSeq_eq_of_puzzle {st st' : SessionState} (h : st'.puzzle = st.puzzle) :
    expectedSeq st' = expectedSeq st := by
  simp [expectedSeq, h]

lemma expectedListD_eq {st : SessionState} {L : List String}
    (h : expectedSeq st = .ok L) : expectedListD st = L := by
  simp [expectedListD, h, Except.toOption]

lemma expectedSeq_def (st : SessionState) :
    expectedSeq st = toSanSequence st.puzzle.fen st.puzzle.solution := rfl

lemma expectedListD_def (st : SessionState) :
    expectedListD st = (expectedSeq st).toOption.getD [] := rfl

/-! ## Operation characterization lemmas -/

lemma submitMove_of_solved {st : SessionState} (src tgt : Nat)
    (h : st.solved = true) : submitMove st src tgt = (st, false) := by
  simp [submitMove, h]

lemma submitMove_of_not_solved {st : SessionState} (src tgt : Nat)
    (h : st.solved = false) : submitMove st src tgt = onDrop st src tgt := by
  simp [submitMove, h]

lemma onDrop_illegal {st : SessionState} {src tgt : Nat}
    (h : tryMoveFromTo st.fen src tgt (some .queen) = none) :
    onDrop st src tgt = (st, false) := by
  simp [onDrop, h]

lemma onDrop_wrong {st : SessionState} {src tgt : Nat} {mv : ChessMove}
    (h : tryMoveFromTo st.fen src tgt (some .queen) = some mv)
    (hc : correctDrop st (sanOf st.fen mv) = false) :
    onDrop st src tgt = ({ st with wrong := true }, false) := by
  simp [onDrop, h, hc]

lemma onDrop_correct {st : SessionState} {src tgt : Nat} {mv : ChessMove}
    (h : tryMoveFromTo st.fen src tgt (some .queen) = some mv)
    (hc : correctDrop st (sanOf st.fen mv) = true) :
    onDrop st src tgt = (acceptMove st mv (sanOf st.fen mv), true) := by
  simp [onDrop, h, hc]

lemma correctDrop_iff {st : SessionState} {s : String} :
    correctDrop st s = true ↔
      ∃ e, (expectedListD st).get? st.ply = some e ∧ clean e = clean s := by
  unfold correctDrop
  cases h : (expectedListD st).get? st.ply <;> simp [h]

lemma tryMoveFromTo_spec {p : Position} {f t : Nat} {po : Option PieceKind}
    {m : ChessMove} (h : tryMoveFromTo p f t po = some m) :
    m ∈ legalMoves p ∧ m.fromSq = f ∧ m.toSq = t ∧
      (m.promo = none ∨ m.promo = po) := by
  unfold tryMoveFromTo at h
  refine ⟨List.mem_of_find?_eq_some h, ?_⟩
  have h2 := List.find?_some h
  simpa using h2

/-! ## SAN stripping lemmas -/

lemma sanStripChars_append (xs ys : List Char) :
    sanStripChars (xs ++ ys) = sanStripChars xs ++ sanStripChars ys := by
  simp [sanStripChars, cleanChars, List.filter_append]

lemma sanStripChars_checkChars (p : Position) (m : ChessMove) :
    sanStripChars (checkChars p m) = [] := by
  simp only [checkChars]
  split
  · split <;> decide
  · decide

lemma sanStrip_sanOf (p : Position) (m : ChessMove) :
    sanStrip (sanOf p m) = ⟨sanStripChars (sanCore (legalMoves p) p m)⟩ := by
  simp [sanStrip, sanOf, sanStripChars_append, sanStripChars_checkChars]

lemma sanStrip_eq_of_clean_eq {a b : String} (h : clean a = clean b) :
    sanStrip a = sanStrip b := by
  have hd : cleanChars a.data = cleanChars b.data := congrArg String.data h
  simp [sanStrip, sanStripChars, hd]

lemma sanMove_spec {p : Position} {t : String} {m : ChessMove}
    (h : sanMove p t = some m) :
    m ∈ legalMoves p ∧ sanStrip (sanOf p m) = sanStrip t := by
  unfold sanMove at h
  refine ⟨List.mem_of_find?_eq_some h, ?_⟩
  have h2 := List.find?_some h
  rw [sanStrip_sanOf]
  have h3 : sanStripChars (sanCore (legalMoves p) p m) = sanStripChars t.data := by
    simpa using h2
  simp [sanStrip, h3]

/-! ## LogReplay lemmas -/

lemma LogReplay.eq_of_nil {p q : Position} (h : LogReplay p [] q) : q = p := by
  cases h; rfl

lemma LogReplay.snoc {p q : Position} {es : List String}
    (h : LogReplay p es q) {e : String} {m : ChessMove}
    (hm : m ∈ legalMoves q) (hsan : sanStrip (sanOf q m) = sanStrip e) :
    LogReplay p (es ++ [e]) (applyMove q m) := by
  induction h with
  | nil p => exact .cons m hm hsan (.nil _)
  | cons m' hm' hsan' _ ih => exact .cons m' hm' hsan' (ih hm hsan)

/-! ## Invariant preservation -/

lemma solved_iff_zero (n : Nat) : (false = true) ↔ (0 = n ∧ 0 < n) := by
  constructor
  · intro hh; cases hh
  · rintro ⟨h1, h2⟩; omega

lemma inv_mkSession {cfg : PuzzleConfig} {p0 : Position}
    (h : parseFen cfg.fen = some p0) : SessionInv (mkSession cfg p0) :=
  ⟨rfl, p0, h, fun L _ => ⟨Nat.zero_le _, LogReplay.nil p0, solved_iff_zero L.length⟩⟩

lemma inv_set_wrong {st : SessionState} (h : SessionInv st) (w : Bool) :
    SessionInv { st with wrong := w } := by
  obtain ⟨hc, p0, hp0, hL⟩ := h
  exact ⟨hc, p0, hp0, fun L hok => hL L hok⟩

lemma inv_set_arrows {st : SessionState} (h : SessionInv st)
    (a : List (Nat × Nat)) : SessionInv { st with arrows := a } := by
  obtain ⟨hc, p0, hp0, hL⟩ := h
  exact ⟨hc, p0, hp0, fun L hok => hL L hok⟩

lemma solved_false_of_lt {st : SessionState} {L : List String}
    (hiff : st.solved = true ↔ (st.ply = L.length ∧ 0 < L.length))
    (hlt : st.ply < L.length) : st.solved = false := by
  rcases h : st.solved with _ | _
  · rfl
  · rcases hiff.mp h with ⟨he, -⟩
    omega

/-- The accepting step preserves the invariant (shared by `onDrop` and
`playExpectedMove`-style updates). -/
lemma inv_accept_core {st : SessionState} {p0 : Position} {L : List String}
    {mv : ChessMove} {e : String}
    (hc : st.ply = (st.coach.filter (·.ok)).length)
    (hp0 : parseFen st.puzzle.fen = some p0)
    (hok : expectedSeq st = .ok L)
    (hinv : st.ply ≤ L.length ∧ LogReplay p0 (L.take st.ply) st.fen ∧
      (st.solved = true ↔ (st.ply = L.length ∧ 0 < L.length)))
    (hget : L.get? st.ply = some e)
    (hm : mv ∈ legalMoves st.fen)
    (hsan : sanStrip (sanOf st.fen mv) = sanStrip e)
    (st' : SessionState) (hply : st'.ply = st.ply + 1)
    (hcoach : st'.coach = st.coach ++ [⟨true, coachText st (sanOf st.fen mv)⟩])
    (hpz : st'.puzzle = st.puzzle) (hfen : st'.fen = applyMove st.fen mv)
    (hsv : st'.solved = (st.solved || (st.ply + 1 == L.length))) :
    SessionInv st' := by
  obtain ⟨hle, hrep, hiff⟩ := hinv
  have hlt : st.ply < L.length := List.get?_eq_some.mp hget |>.choose
  refine ⟨?_, p0, ?_, fun L' hok' => ?_⟩
  · simp [hply, hcoach, hc, List.filter_append]
  · rw [hpz]; exact hp0
  · have hLL : L' = L := by
      rw [expectedSeq_def, hpz, ← expectedSeq_def, hok] at hok'
      exact (Except.ok.inj hok').symm
    subst hLL
    have hsolved : st.solved = false := solved_false_of_lt hiff hlt
    refine ⟨by omega, ?_, ?_⟩
    · rw [List.get?_eq_getElem?] at hget
      rw [hply, hfen, List.take_succ, hget]
      exact hrep.snoc hm hsan
    · rw [hsv, hsolved, hply]
      simp only [Bool.false_or, beq_iff_eq]
      constructor
      · intro hh; exact ⟨hh, by omega⟩
      · intro hh; exact hh.1

lemma inv_submit {st : SessionState} (src tgt : Nat) (h : SessionInv st) :
    SessionInv (submitMove st src tgt).1 := by
  rcases hsv : st.solved with _ | _
  · rw [submitMove_of_not_solved src tgt hsv]
    rcases htry : tryMoveFromTo st.fen src tgt (some .queen) with _ | mv
    · rw [onDrop_illegal htry]; exact h
    · rcases hcd : correctDrop st (sanOf st.fen mv) with _ | _
      · rw [onDrop_wrong htry hcd]
        exact inv_set_wrong h true
      · rw [onDrop_correct htry hcd]
        obtain ⟨hc, p0, hp0, hL⟩ := h
        obtain ⟨e, hget, hclean⟩ := correctDrop_iff.mp hcd
        rcases hok : expectedSeq st with msg | L
        · rw [expectedListD_def, hok] at hget
          simp [Except.toOption] at hget
        · have hgetL : L.get? st.ply = some e := by
            rw [expectedListD_eq hok] at hget; exact hget
          refine inv_accept_core hc hp0 hok (hL L hok) hgetL
            (tryMoveFromTo_spec htry).1
            (sanStrip_eq_of_clean_eq hclean.symm)
            (acceptMove st mv (sanOf st.fen mv)) rfl rfl rfl rfl ?_
          simp [acceptMove, expectedListD_eq hok]
  · rw [submitMove_of_solved src tgt hsv]; exact h

lemma inv_reset {st : SessionState} (h : SessionInv st) :
    SessionInv (reset st) := by
  obtain ⟨hc, p0, hp0, hL⟩ := h
  have hres : reset st =
      { st with
        fen := p0
        ply := 0
        wrong := false
        arrows := []
        solved := false
        coach := [] } := by
    simp [reset, hp0]
  rw [hres]
  exact ⟨rfl, p0, hp0, fun L _ =>
    ⟨Nat.zero_le _, LogReplay.nil p0, solved_iff_zero L.length⟩⟩

lemma showHint_cases (st : SessionState) :
    showHint st = st ∨ ∃ a, showHint st = { st with arrows := a } := by
  unfold showHint
  split
  · exact Or.inl rfl
  · split
    · exact Or.inl rfl
    · exact Or.inr ⟨_, rfl⟩

lemma inv_hint {st : SessionState} (h : SessionInv st) :
    SessionInv (showHint st) := by
  rcases showHint_cases st with hh | ⟨a, hh⟩ <;> rw [hh]
  · exact h
  · exact inv_set_arrows h a

lemma inv_play {st : SessionState} (h : SessionInv st) :
    SessionInv (playExpectedMove st) := by
  rcases hge : decide (st.ply ≥ (expectedListD st).length) with _ | _
  · have hlt : st.ply < (expectedListD st).length := by
      have := of_decide_eq_false hge; omega
    rcases hok : expectedSeq st with msg | L
    · rw [expectedListD_def, hok] at hlt
      simp [Except.toOption] at hlt
    · have hLd : expectedListD st = L := expectedListD_eq hok
      rw [hLd] at hlt
      have hgetE : L[st.ply]? = some L[st.ply] := List.getElem?_eq_getElem hlt
      have hget : L.get? st.ply = some (L.getD st.ply "") := by
        rw [List.get?_eq_getElem?, hgetE, List.getD_eq_getElem?_getD, hgetE]
        rfl
      rcases hsm : sanMove st.fen (L.getD st.ply "") with _ | m
      · unfold playExpectedMove
        rw [hLd, if_neg (by omega), hsm]
        exact h
      · obtain ⟨hc, p0, hp0, hL⟩ := h
        have hmm := sanMove_spec hsm
        have heq : playExpectedMove st =
            { st with
              fen := applyMove st.fen m
              ply := st.ply + 1
              coach := st.coach ++ [⟨true, coachText st (sanOf st.fen m)⟩]
              solved := st.solved || (st.ply + 1 == L.length) } := by
          unfold playExpectedMove
          rw [hLd, if_neg (by omega), hsm]
        rw [heq]
        exact inv_accept_core hc hp0 hok (hL L hok) hget hmm.1 hmm.2 _
          rfl rfl rfl rfl rfl
  · have hge' : st.ply ≥ (expectedListD st).length := of_decide_eq_true hge
    unfold playExpectedMove
    rw [if_pos hge']
    exact h

lemma inv_load {st : SessionState} (f : String) (h : SessionInv st) :
    SessionInv (onLoad st f).1 := by
  rcases hp : parseFen f with _ | p
  · simpa [onLoad, hp] using h
  · simp only [onLoad, hp]
    exact ⟨rfl, p, hp, fun L _ =>
      ⟨Nat.zero_le _, LogReplay.nil p, solved_iff_zero L.length⟩⟩

lemma inv_loadSol {st : SessionState} (seq : List String) (h : SessionInv st)
    (hf : parseFen st.puzzle.fen = some st.fen) :
    SessionInv (onLoadSolution st seq).1 := by
  rcases hts : toSanSequence st.puzzle.fen seq with msg | out
  · simpa [onLoadSolution, hts] using h
  · simp only [onLoadSolution, hts]
    exact ⟨rfl, st.fen, hf, fun L _ =>
      ⟨Nat.zero_le _, LogReplay.nil _, solved_iff_zero L.length⟩⟩

/-- The amended invariant holds in every state reachable with solution
loads performed at the start position. -/
lemma sessionInv_of_reachableR {st : SessionState} (h : ReachableR st) :
    SessionInv st := by
  induction h with
  | init cfg p0 h => exact inv_mkSession h
  | submit src tgt _ ih => exact inv_submit src tgt ih
  | undoStep _ ih => rw [undo_eq_id]; exact ih
  | resetStep _ ih => exact inv_reset ih
  | hint _ ih => exact inv_hint ih
  | play _ ih => exact inv_play ih
  | load f _ ih => exact inv_load f ih
  | loadSol seq _ h0 hf ih => exact inv_loadSol seq ih hf

/-! ## C1 -/

/-- C1 code bug: the spec's `undo()` must revert one correct move,
but the implementation builds a fresh chess.js instance from the stored
FEN — whose history is empty — so `undo()` returns `null` and the whole
operation is a no-op on every state. Concretely, after correctly playing
the demo move (`ply = 1`, nonempty move log), `undo` leaves the session
unchanged instead of reverting to ply 0. -/
theorem c1_undo_noop_bug :
    (∀ st : SessionState, undo st = st) ∧
    (submitMove demoInit 53 54).1.coach ≠ [] ∧
    (submitMove demoInit 53 54).1.ply = 1 ∧
    undo (submitMove demoInit 53 54).1 = (submitMove demoInit 53 54).1 :=
  ⟨fun _ => rfl, by decide, by decide, rfl⟩

/-! ## C7 -/

/-- C7:: in position `7k/5Q2/7K/8/8/8/8/8 w - - 0 1`, the canonical
token `"Qg7#"` and the coordinate token `"f7g7"` normalize to the
identical canonical output, which after decoration stripping equals
`"Qg7"`. -/
theorem c7_round_trip :
    toSanSequence "7k/5Q2/7K/8/8/8/8/8 w - - 0 1" ["Qg7#"] = .ok ["Qg7#"] ∧
    toSanSequence "7k/5Q2/7K/8/8/8/8/8 w - - 0 1" ["f7g7"] = .ok ["Qg7#"] ∧
    clean "Qg7#" = "Qg7" :=
  ⟨by decide, by decide, by decide⟩

/-! ## C4 -/

/-- C4 counterexample: loading a new start position commits the
state change even though the active expected line fails to normalize
against it — contradicting "validates … that the expected line
normalizes successfully … before committing; on any validation failure
the previous session and active puzzle definition are left completely
untouched". -/
theorem c4_counterexample :
    (onLoad demoInit badLoadFen).2 = true ∧
    (onLoad demoInit badLoadFen).1.puzzle.fen ≠ demoInit.puzzle.fen ∧
    expectedSeq (onLoad demoInit badLoadFen).1 =
      .error "Invalid solution move: Qg7#" :=
  ⟨by decide, by decide, by decide⟩

/-- C4 amended: loading a position validates only that the FEN is
structurally valid — on failure nothing changes and an error is
surfaced, on success the FEN is committed without revalidating the
expected line against it; loading a solution list validates that it
normalizes against the active start position — on failure (e.g. one
illegal token) nothing changes and an error is surfaced. -/
theorem c4_amended :
    (∀ st f, parseFen f = none → onLoad st f = (st, false)) ∧
    (∀ st f p, parseFen f = some p →
      (onLoad st f).2 = true ∧ (onLoad st f).1.puzzle.fen = f ∧
      (onLoad st f).1.fen = p) ∧
    (∀ st seq msg, toSanSequence st.puzzle.fen seq = .error msg →
      onLoadSolution st seq = (st, false)) ∧
    (∀ st seq out, toSanSequence st.puzzle.fen seq = .ok out →
      (onLoadSolution st seq).2 = true ∧
      (onLoadSolution st seq).1.puzzle.solution = seq) := by
  refine ⟨fun st f h => ?_, fun st f p h => ?_, fun st seq msg h => ?_,
    fun st seq out h => ?_⟩
  · simp [onLoad, h]
  · simp [onLoad, h]
  · simp [onLoadSolution, h]
  · simp [onLoadSolution, h]

/-- Witness for C4 (amended): a malformed FEN is rejected without any
state change; a valid FEN commits; the illegal token `"a1a8"` is
rejected without any state change. -/
theorem c4_amended_witness :
    onLoad demoInit "bogus" = (demoInit, false) ∧
    (onLoad demoInit badLoadFen).2 = true ∧
    onLoadSolution demoInit ["a1a8"] = (demoInit, false) ∧
    (onLoadSolution demoInit ["f7g7"]).2 = true :=
  ⟨c4_amended.1 demoInit "bogus" (by decide),
   (c4_amended.2.1 demoInit badLoadFen
     ((parseFen badLoadFen).getD emptyPos) (by decide)).1,
   c4_amended.2.2.1 demoInit ["a1a8"] "Invalid solution move: a1a8" (by decide),
   (c4_amended.2.2.2 demoInit ["f7g7"] ["Qg7#"] (by decide)).1⟩

/-! ## C9 -/

/-- C9 counterexample: the claimed invariant fails on two
reachable states. (a) After loading an empty solution list, `plyIndex =
0 = len(expectedLine)` yet `solved` is `false`, refuting
`solved ⟺ plyIndex = len(expectedLine)` at length 0. (b) After loading
a solution mid-game, the move log is empty but `currentPosition` is not
the start position (`onLoadSolution` does not reset the board),
refuting the position clause. -/
theorem c9_counterexample :
    Reachable c9StateA ∧ ¬ ClaimedInv c9StateA ∧
    Reachable c9StateB ∧ ¬ ClaimedInv c9StateB := by
  refine ⟨Reachable.loadSol [] (Reachable.init DEFAULT_PUZZLE demoPos (by decide)),
    ?_,
    Reachable.loadSol ["Qg7#"]
      (Reachable.submit 53 54 (Reachable.init DEFAULT_PUZZLE demoPos (by decide))),
    ?_⟩
  · rintro ⟨-, p0, hp0, hall⟩
    obtain ⟨-, hiff⟩ := hall [] (by decide)
    have h1 : c9StateA.solved = true := hiff.mpr (by decide)
    exact absurd h1 (by decide)
  · rintro ⟨-, p0, hp0, hall⟩
    have hdp : parseFen c9StateB.puzzle.fen = some demoPos := by decide
    rw [hdp] at hp0
    obtain rfl : demoPos = p0 := Option.some.inj hp0
    obtain ⟨hrep, -⟩ := hall ["Qg7#"] (by decide)
    have hply : c9StateB.ply = 0 := by decide
    rw [hply] at hrep
    have hfen := LogReplay.eq_of_nil hrep
    exact absurd hfen (by decide)

/-- C9 amended: in every session state reachable through the
component's operations — with solution loads performed at the start
position, the restriction forced by `onLoadSolution` not resetting the
board — `plyIndex` equals the count of correct entries in the move log,
`currentPosition` equals the start position with the logged correct
moves applied in order, and `solved` holds iff `plyIndex =
len(expectedLine)` AND the expected line is nonempty (a zero-length
expected line never sets `solved`). -/
theorem c9_session_invariant (st : SessionState) (h : ReachableR st) :
    SessionInv st :=
  sessionInv_of_reachableR h

/-- Witness for C9 (amended) at the freshly created demo session. -/
theorem c9_session_invariant_witness : SessionInv demoInit :=
  c9_session_invariant demoInit
    (ReachableR.init DEFAULT_PUZZLE demoPos (by decide))

/-! ## C2 -/

/-- C2:: a user-submitted move that is legal in the current position
is accepted iff the played move's canonical SAN equals
`expectedLine[plyIndex]` after removing the characters `+ # ! ?` from
both sides — the comparison is literal equality of the cleaned strings,
with no further canonicalization. -/
theorem c2_matching_policy (st : SessionState) (L : List String)
    (src tgt : Nat) (mv : ChessMove)
    (hok : expectedSeq st = .ok L) (hp : st.ply < L.length)
    (hsv : st.solved = false)
    (hleg : tryMoveFromTo st.fen src tgt (some .queen) = some mv) :
    (submitMove st src tgt).2 = true ↔
      clean (sanOf st.fen mv) = clean (L.get ⟨st.ply, hp⟩) := by
  rw [submitMove_of_not_solved src tgt hsv]
  have hget : (expectedListD st).get? st.ply = some (L.get ⟨st.ply, hp⟩) := by
    rw [expectedListD_eq hok]
    exact List.get?_eq_get hp
  rcases hcd : correctDrop st (sanOf st.fen mv) with _ | _
  · rw [onDrop_wrong hleg hcd]
    constructor
    · intro hh; cases hh
    · intro hh
      have hcd' : correctDrop st (sanOf st.fen mv) = true :=
        correctDrop_iff.mpr ⟨_, hget, hh.symm⟩
      rw [hcd'] at hcd; cases hcd
  · rw [onDrop_correct hleg hcd]
    obtain ⟨e, hget', hclean⟩ := correctDrop_iff.mp hcd
    rw [hget] at hget'
    obtain rfl := Option.some.inj hget'
    simp [hclean.symm]

/-- Witness for C2: the correct demo move `f7 → g7` is accepted. -/
theorem c2_witness : (submitMove demoInit 53 54).2 = true :=
  (c2_matching_policy demoInit ["Qg7#"] 53 54 ⟨53, 54, none⟩ (by decide)
    (by decide) (by decide) (by decide)).mpr (by decide)

/-! ## C3 -/

/-- C3:: an illegal from/to submission leaves the whole session
unchanged (wrong flag included) and returns a rejection; a legal
submission that does not match `expectedLine[plyIndex]` after decoration
stripping leaves `currentPosition`, `plyIndex` and the move log
unchanged, raises the transient wrong flag, and returns a rejection. -/
theorem c3_rejections :
    (∀ (st : SessionState) (src tgt : Nat),
      tryMoveFromTo st.fen src tgt (some .queen) = none →
      submitMove st src tgt = (st, false)) ∧
    (∀ (st : SessionState) (L : List String) (src tgt : Nat) (mv : ChessMove)
      (hp : st.ply < L.length),
      expectedSeq st = .ok L → st.solved = false →
      tryMoveFromTo st.fen src tgt (some .queen) = some mv →
      clean (sanOf st.fen mv) ≠ clean (L.get ⟨st.ply, hp⟩) →
      submitMove st src tgt = ({ st with wrong := true }, false)) := by
  constructor
  · intro st src tgt h
    rcases hsv : st.solved with _ | _
    · rw [submitMove_of_not_solved _ _ hsv, onDrop_illegal h]
    · rw [submitMove_of_solved _ _ hsv]
  · intro st L src tgt mv hp hok hsv hleg hne
    rw [submitMove_of_not_solved _ _ hsv]
    have hget : (expectedListD st).get? st.ply = some (L.get ⟨st.ply, hp⟩) := by
      rw [expectedListD_eq hok]
      exact List.get?_eq_get hp
    have hcd : correctDrop st (sanOf st.fen mv) = false := by
      rcases hcd : correctDrop st (sanOf st.fen mv) with _ | _
      · rfl
      · exfalso
        obtain ⟨e, hget', hclean⟩ := correctDrop_iff.mp hcd
        rw [hget] at hget'
        obtain rfl := Option.some.inj hget'
        exact hne hclean.symm
    rw [onDrop_wrong hleg hcd]

/-- Witness for C3: in the demo session, `h6 → h8` is illegal and is
rejected with no state change; the legal but wrong `h6 → h5` (`Kh5`) is
rejected raising only the wrong flag. -/
theorem c3_witness :
    submitMove demoInit 47 63 = (demoInit, false) ∧
    submitMove demoInit 47 39 = ({ demoInit with wrong := true }, false) :=
  ⟨c3_rejections.1 demoInit 47 63 (by decide),
   c3_rejections.2 demoInit ["Qg7#"] 47 39 ⟨47, 39, none⟩ (by decide) (by decide)
     (by decide) (by decide) (by decide)⟩

/-! ## C5 -/

lemma submit_accepted_eq {st : SessionState} {src tgt : Nat} {st' : SessionState}
    (h : submitMove st src tgt = (st', true)) :
    st.solved = false ∧ ∃ mv, tryMoveFromTo st.fen src tgt (some .queen) = some mv ∧
      correctDrop st (sanOf st.fen mv) = true ∧
      st' = acceptMove st mv (sanOf st.fen mv) := by
  rcases hsv : st.solved with _ | _
  · rw [submitMove_of_not_solved _ _ hsv] at h
    rcases htry : tryMoveFromTo st.fen src tgt (some .queen) with _ | mv
    · rw [onDrop_illegal htry] at h
      simp at h
    · rcases hcd : correctDrop st (sanOf st.fen mv) with _ | _
      · rw [onDrop_wrong htry hcd] at h
        simp at h
      · rw [onDrop_correct htry hcd] at h
        exact ⟨rfl, mv, rfl, hcd, (congrArg Prod.fst h).symm⟩
  · rw [submitMove_of_solved _ _ hsv] at h
    simp at h

lemma c5_aux {L : List String} (ds : List (Nat × Nat)) :
    ∀ st : SessionState, expectedSeq st = .ok L → st.solved = false →
      st.ply + ds.length = L.length → st.ply < L.length →
      submitLineOk st ds = true →
      ∀ k, k ≤ ds.length →
        (submitLine st (ds.take k)).ply = st.ply + k ∧
        ((submitLine st (ds.take k)).solved = true ↔ st.ply + k = L.length) := by
  induction ds with
  | nil =>
    intro st _ _ hlen hlt _ k hk
    simp only [List.length_nil] at hlen
    exfalso
    omega
  | cons d ds ih =>
    intro st hok hsv hlen hlt hld k hk
    simp only [List.length_cons] at hlen hk
    simp only [submitLineOk, Bool.and_eq_true] at hld
    obtain ⟨hacc2, hldrest⟩ := hld
    have hsub : submitMove st d.1 d.2 = ((submitMove st d.1 d.2).1, true) :=
      Prod.ext rfl hacc2
    obtain ⟨-, mv, htry, hcd, hst1⟩ := submit_accepted_eq hsub
    have hply1 : (submitMove st d.1 d.2).1.ply = st.ply + 1 := by rw [hst1]; rfl
    have hpz1 : (submitMove st d.1 d.2).1.puzzle = st.puzzle := by rw [hst1]; rfl
    have hok1 : expectedSeq (submitMove st d.1 d.2).1 = .ok L := by
      rw [expectedSeq_def, hpz1, ← expectedSeq_def, hok]
    have hsv1 : (submitMove st d.1 d.2).1.solved = (st.ply + 1 == L.length) := by
      rw [hst1]
      show (st.solved || (st.ply + 1 == (expectedListD st).length)) =
        (st.ply + 1 == L.length)
      rw [hsv, expectedListD_eq hok, Bool.false_or]
    rcases k with _ | k
    · refine ⟨by simp [submitLine], ?_⟩
      simp only [List.take_zero, submitLine]
      rw [hsv]
      constructor
      · intro hh; cases hh
      · intro hh; omega
    · by_cases hdone : st.ply + 1 = L.length
      · have hds : ds = [] := List.length_eq_zero.mp (by omega)
        subst hds
        have hk0 : k = 0 := by omega
        subst hk0
        refine ⟨?_, ?_⟩
        · show (submitLine (submitMove st d.1 d.2).1 []).ply = st.ply + 1
          simpa [submitLine] using hply1
        · show (submitLine (submitMove st d.1 d.2).1 []).solved = true ↔ _
          simp only [submitLine]
          rw [hsv1]
          simp [hdone]
      · have hlt1 : st.ply + 1 < L.length := by omega
        have hsv1' : (submitMove st d.1 d.2).1.solved = false := by
          rw [hsv1]
          simp only [beq_eq_false_iff_ne, ne_eq]
          omega
        have hrec := ih (submitMove st d.1 d.2).1 hok1 hsv1'
          (by rw [hply1]; omega) (by rw [hply1]; omega) hldrest k (by omega)
        rw [hply1] at hrec
        constructor
        · show (submitLine (submitMove st d.1 d.2).1 (ds.take k)).ply = st.ply + (k + 1)
          rw [hrec.1]; omega
        · show (submitLine (submitMove st d.1 d.2).1 (ds.take k)).solved = true ↔
            st.ply + (k + 1) = L.length
          rw [hrec.2]
          omega

/-- C5:: submitting each expected move in order (every drop accepted)
drives `plyIndex` from 0 to `len(expectedLine)`, and `solved` is set
exactly at the final move (`solved` is false after every proper prefix
and true exactly when all moves are in); once solved, every further
submission is rejected administratively — the state is returned intact
with no error and no wrong flag. -/
theorem c5_line_completion (st : SessionState) (L : List String)
    (ds : List (Nat × Nat))
    (hok : expectedSeq st = .ok L) (h0 : st.ply = 0) (hsv : st.solved = false)
    (hlen : ds.length = L.length) (hpos : 0 < L.length)
    (hld : submitLineOk st ds = true) :
    (∀ k, k ≤ ds.length →
      (submitLine st (ds.take k)).ply = k ∧
      ((submitLine st (ds.take k)).solved = true ↔ k = L.length)) ∧
    (∀ (st' : SessionState) (src tgt : Nat), st'.solved = true →
      submitMove st' src tgt = (st', false)) := by
  constructor
  · intro k hk
    have hres := c5_aux ds st hok hsv (by omega) (by omega) hld k hk
    rw [h0] at hres
    simpa using hres
  · intro st' src tgt h
    exact submitMove_of_solved src tgt h

/-- Witness for C5: the one-move demo line, submitted as `f7 → g7`,
ends at ply 1 with `solved`; the solved session rejects a further
submission as a pure no-op. -/
theorem c5_witness :
    ((submitLine demoInit ([((53 : Nat), (54 : Nat))].take 1)).ply = 1 ∧
      ((submitLine demoInit ([((53 : Nat), (54 : Nat))].take 1)).solved = true ↔
        1 = 1)) ∧
    submitMove (submitLine demoInit [((53 : Nat), (54 : Nat))]) 53 54 =
      (submitLine demoInit [((53 : Nat), (54 : Nat))], false) :=
  ⟨(c5_line_completion demoInit ["Qg7#"] [(53, 54)] (by decide) rfl rfl (by decide)
      (by decide) (by decide)).1 1 (by decide),
   (c5_line_completion demoInit ["Qg7#"] [(53, 54)] (by decide) rfl rfl (by decide)
      (by decide) (by decide)).2 _ 53 54 (by decide)⟩

/-! ## C8 -/

lemma getD_eq_get {L : List String} {n : Nat} (h : n < L.length) :
    L.getD n "" = L.get ⟨n, h⟩ := by
  rw [List.getD_eq_getElem?_getD, List.getElem?_eq_getElem h]
  rfl

/-- C8:: `playExpectedMove()` is a no-op on a solved session; on an
unsolved session it applies `expectedLine[plyIndex]` with exactly the
same effect on `currentPosition`, `plyIndex`, the appended move-log
entry, and the `solved` flag as an accepted `submitMove` of the
corresponding from/to squares (the two results differ at most in the
hint arrows, which only the drop handler clears). -/
theorem c8_play_equiv :
    (∀ st : SessionState, ReachableR st → st.solved = true →
      playExpectedMove st = st) ∧
    (∀ (st : SessionState) (L : List String) (mv : ChessMove)
      (hp : st.ply < L.length),
      expectedSeq st = .ok L → st.solved = false →
      sanMove st.fen (L.get ⟨st.ply, hp⟩) = some mv →
      tryMoveFromTo st.fen mv.fromSq mv.toSq (some .queen) = some mv →
      clean (sanOf st.fen mv) = clean (L.get ⟨st.ply, hp⟩) →
      (submitMove st mv.fromSq mv.toSq).2 = true ∧
      (playExpectedMove st).fen = (submitMove st mv.fromSq mv.toSq).1.fen ∧
      (playExpectedMove st).ply = (submitMove st mv.fromSq mv.toSq).1.ply ∧
      (playExpectedMove st).coach = (submitMove st mv.fromSq mv.toSq).1.coach ∧
      (playExpectedMove st).solved = (submitMove st mv.fromSq mv.toSq).1.solved) := by
  constructor
  · intro st hreach hsv
    obtain ⟨-, p0, hp0, hL⟩ := sessionInv_of_reachableR hreach
    have hge : st.ply ≥ (expectedListD st).length := by
      rcases hok : expectedSeq st with msg | L
      · simp [expectedListD_def, hok, Except.toOption]
      · obtain ⟨-, -, hiff⟩ := hL L hok
        obtain ⟨he, -⟩ := hiff.mp hsv
        rw [expectedListD_eq hok]
        omega
    simp only [playExpectedMove]
    rw [if_pos hge]
  · intro st L mv hp hok hsv hsm htry hclean
    have hget : (expectedListD st).get? st.ply = some (L.get ⟨st.ply, hp⟩) := by
      rw [expectedListD_eq hok]
      exact List.get?_eq_get hp
    have hcd : correctDrop st (sanOf st.fen mv) = true :=
      correctDrop_iff.mpr ⟨_, hget, hclean.symm⟩
    have hsubmit : submitMove st mv.fromSq mv.toSq =
        (acceptMove st mv (sanOf st.fen mv), true) := by
      rw [submitMove_of_not_solved _ _ hsv, onDrop_correct htry hcd]
    have hplay : playExpectedMove st =
        { st with
          fen := applyMove st.fen mv
          ply := st.ply + 1
          coach := st.coach ++ [⟨true, coachText st (sanOf st.fen mv)⟩]
          solved := st.solved || (st.ply + 1 == (expectedListD st).length) } := by
      simp only [playExpectedMove]
      rw [if_neg (by rw [expectedListD_eq hok]; omega)]
      rw [expectedListD_eq hok, getD_eq_get hp, hsm]
    rw [hsubmit, hplay]
    exact ⟨rfl, rfl, rfl, rfl, rfl⟩

/-- Witness for C8: the solved demo session is reachable and
`playExpectedMove` leaves it untouched; on the fresh demo session,
`playExpectedMove` and the accepted submission `f7 → g7` agree on
position, ply, log and solved flag. -/
theorem c8_witness :
    playExpectedMove (submitMove demoInit 53 54).1 = (submitMove demoInit 53 54).1 ∧
    ((submitMove demoInit 53 54).2 = true ∧
      (playExpectedMove demoInit).fen = (submitMove demoInit 53 54).1.fen ∧
      (playExpectedMove demoInit).ply = (submitMove demoInit 53 54).1.ply ∧
      (playExpectedMove demoInit).coach = (submitMove demoInit 53 54).1.coach ∧
      (playExpectedMove demoInit).solved = (submitMove demoInit 53 54).1.solved) :=
  ⟨c8_play_equiv.1 (submitMove demoInit 53 54).1
    (ReachableR.submit 53 54 (ReachableR.init DEFAULT_PUZZLE demoPos (by decide)))
    (by decide),
   c8_play_equiv.2 demoInit ["Qg7#"] ⟨53, 54, none⟩ (by decide) (by decide)
    (by decide) (by decide) (by decide) (by decide)⟩

/-! ## C6 -/

lemma toSanSeqAux_cons_san {p : Position} {t : String} {m : ChessMove}
    (ts : List String) (h : sanMove p t = some m) :
    toSanSeqAux p (t :: ts) =
      (toSanSeqAux (applyMove p m) ts).map (List.cons (sanOf p m)) := by
  rw [toSanSeqAux.eq_2, h]

lemma toSanSeqAux_cons_uci {p : Position} {t : String} {m : ChessMove}
    (ts : List String) (h1 : sanMove p t = none) (h2 : isUciToken t = true)
    (h3 : uciMove p t = some m) :
    toSanSeqAux p (t :: ts) =
      (toSanSeqAux (applyMove p m) ts).map (List.cons (sanOf p m)) := by
  rw [toSanSeqAux.eq_2, h1, if_pos h2, h3]

lemma toSanSeqAux_cons_fail {p : Position} {t : String} (ts : List String)
    (h1 : sanMove p t = none)
    (h2 : isUciToken t = false ∨ uciMove p t = none) :
    toSanSeqAux p (t :: ts) = .error (invalidMsg t) := by
  rw [toSanSeqAux.eq_2, h1]
  rcases h2 with h2 | h2
  · rw [if_neg (by simp [h2])]
  · by_cases hu : isUciToken t
    · rw [if_pos hu, h2]
    · rw [if_neg hu]

lemma toSanSeqAux_ok_length (ts : List String) :
    ∀ (p : Position) (out : List String),
      toSanSeqAux p ts = .ok out → out.length = ts.length := by
  induction ts with
  | nil =>
    intro p out h
    rw [toSanSeqAux.eq_1] at h
    obtain rfl := Except.ok.inj h
    rfl
  | cons t ts ih =>
    intro p out h
    rcases hsm : sanMove p t with _ | m
    · by_cases hu : isUciToken t
      · rcases hum : uciMove p t with _ | m
        · rw [toSanSeqAux_cons_fail ts hsm (Or.inr hum)] at h
          cases h
        · rw [toSanSeqAux_cons_uci ts hsm hu hum] at h
          rcases hrec : toSanSeqAux (applyMove p m) ts with msg | rest
          · rw [hrec] at h
            simp only [Except.map] at h
            cases h
          · rw [hrec] at h
            simp only [Except.map] at h
            obtain rfl := Except.ok.inj h
            simp [ih (applyMove p m) rest hrec]
      · rw [toSanSeqAux_cons_fail ts hsm (Or.inl (by simpa using hu))] at h
        cases h
    · rw [toSanSeqAux_cons_san ts hsm] at h
      rcases hrec : toSanSeqAux (applyMove p m) ts with msg | rest
      · rw [hrec] at h
        simp only [Except.map] at h
        cases h
      · rw [hrec] at h
        simp only [Except.map] at h
        obtain rfl := Except.ok.inj h
        simp [ih (applyMove p m) rest hrec]

lemma toSanSeqAux_error_mem (ts : List String) :
    ∀ (p : Position) (msg : String),
      toSanSeqAux p ts = .error msg → ∃ t ∈ ts, msg = invalidMsg t := by
  induction ts with
  | nil =>
    intro p msg h
    rw [toSanSeqAux.eq_1] at h
    cases h
  | cons t ts ih =>
    intro p msg h
    rcases hsm : sanMove p t with _ | m
    · by_cases hu : isUciToken t
      · rcases hum : uciMove p t with _ | m
        · rw [toSanSeqAux_cons_fail ts hsm (Or.inr hum)] at h
          exact ⟨t, List.mem_cons_self t ts, (Except.error.inj h).symm⟩
        · rw [toSanSeqAux_cons_uci ts hsm hu hum] at h
          rcases hrec : toSanSeqAux (applyMove p m) ts with msg' | rest
          · rw [hrec] at h
            simp only [Except.map] at h
            obtain rfl := Except.error.inj h
            obtain ⟨t', ht', heq⟩ := ih (applyMove p m) msg' hrec
            exact ⟨t', List.mem_cons_of_mem t ht', heq⟩
          · rw [hrec] at h
            simp only [Except.map] at h
            cases h
      · rw [toSanSeqAux_cons_fail ts hsm (Or.inl (by simpa using hu))] at h
        exact ⟨t, List.mem_cons_self t ts, (Except.error.inj h).symm⟩
    · rw [toSanSeqAux_cons_san ts hsm] at h
      rcases hrec : toSanSeqAux (applyMove p m) ts with msg' | rest
      · rw [hrec] at h
        simp only [Except.map] at h
        obtain rfl := Except.error.inj h
        obtain ⟨t', ht', heq⟩ := ih (applyMove p m) msg' hrec
        exact ⟨t', List.mem_cons_of_mem t ht', heq⟩
      · rw [hrec] at h
        simp only [Except.map] at h
        cases h

lemma isUciToken_shape {t : String} (h : isUciToken t = true) :
    (t.length = 4 ∨ t.length = 5) ∧
      ∀ c ∈ t.data.drop 4, isPromoChar c = true := by
  show (t.data.length = 4 ∨ t.data.length = 5) ∧ _
  unfold isUciToken at h
  rcases hd : t.data with _ | ⟨a, _ | ⟨b, _ | ⟨c, _ | ⟨d, _ | ⟨e, _ | ⟨f, rest⟩⟩⟩⟩⟩⟩ <;>
    rw [hd] at h <;> simp_all

/-- C6:: the normalizer advances a scratch position token by token,
trying the canonical (SAN) interpretation first and, only when that
fails, the coordinate interpretation (which requires exactly 4-5
characters — two squares plus an optional promotion letter restricted to
`q r b n`); when neither yields a legal move it fails with an error
naming the offending token; on success the output preserves input order
and its length equals the input length. -/
theorem c6_normalizer_contract :
    (∀ fen seq p, parseFen fen = some p →
      toSanSequence fen seq = toSanSeqAux p seq) ∧
    (∀ p ts out, toSanSeqAux p ts = .ok out → out.length = ts.length) ∧
    (∀ p ts msg, toSanSeqAux p ts = .error msg → ∃ t ∈ ts, msg = invalidMsg t) ∧
    (∀ (p : Position) (t : String) (ts : List String) (m : ChessMove),
      sanMove p t = some m →
      toSanSeqAux p (t :: ts) =
        (toSanSeqAux (applyMove p m) ts).map (List.cons (sanOf p m))) ∧
    (∀ (p : Position) (t : String) (ts : List String) (m : ChessMove),
      sanMove p t = none → isUciToken t = true → uciMove p t = some m →
      toSanSeqAux p (t :: ts) =
        (toSanSeqAux (applyMove p m) ts).map (List.cons (sanOf p m))) ∧
    (∀ (p : Position) (t : String) (ts : List String),
      sanMove p t = none → (isUciToken t = false ∨ uciMove p t = none) →
      toSanSeqAux p (t :: ts) = .error (invalidMsg t)) ∧
    (∀ t : String, isUciToken t = true →
      (t.length = 4 ∨ t.length = 5) ∧
      ∀ c ∈ t.data.drop 4, isPromoChar c = true) := by
  refine ⟨fun fen seq p hp => ?_,
    fun p ts out h => toSanSeqAux_ok_length ts p out h,
    fun p ts msg h => toSanSeqAux_error_mem ts p msg h,
    fun p t ts m h => toSanSeqAux_cons_san ts h,
    fun p t ts m h1 h2 h3 => toSanSeqAux_cons_uci ts h1 h2 h3,
    fun p t ts h1 h2 => toSanSeqAux_cons_fail ts h1 h2,
    fun t h => isUciToken_shape h⟩
  unfold toSanSequence
  rw [hp]

/-- Witness for C6, on the demo position: the wrapper defers to the
token loop; `"Qg7#"` resolves through the canonical interpretation;
`"f7g7"` fails it and resolves through the coordinate interpretation;
`"a1a8"` fails both and produces the error naming the token; a
coordinate token has length 4 or 5. -/
theorem c6_witness :
    toSanSequence DEFAULT_PUZZLE.fen ["Qg7#"] = toSanSeqAux demoPos ["Qg7#"] ∧
    (["Qg7#"] : List String).length = (["Qg7#"] : List String).length ∧
    (∃ t ∈ (["a1a8"] : List String), "Invalid solution move: a1a8" = invalidMsg t) ∧
    toSanSeqAux demoPos ["Qg7#"] =
      (toSanSeqAux (applyMove demoPos ⟨53, 54, none⟩) []).map
        (List.cons (sanOf demoPos ⟨53, 54, none⟩)) ∧
    toSanSeqAux demoPos ["f7g7"] =
      (toSanSeqAux (applyMove demoPos ⟨53, 54, none⟩) []).map
        (List.cons (sanOf demoPos ⟨53, 54, none⟩)) ∧
    toSanSeqAux demoPos ["a1a8"] = .error (invalidMsg "a1a8") ∧
    (("f7g7" : String).length = 4 ∨ ("f7g7" : String).length = 5) :=
  ⟨c6_normalizer_contract.1 DEFAULT_PUZZLE.fen ["Qg7#"] demoPos (by decide),
   c6_normalizer_contract.2.1 demoPos ["Qg7#"] ["Qg7#"] (by decide),
   c6_normalizer_contract.2.2.1 demoPos ["a1a8"] "Invalid solution move: a1a8"
     (by decide),
   c6_normalizer_contract.2.2.2.1 demoPos "Qg7#" [] ⟨53, 54, none⟩ (by decide),
   c6_normalizer_contract.2.2.2.2.1 demoPos "f7g7" [] ⟨53, 54, none⟩ (by decide)
     (by decide) (by decide),
   c6_normalizer_contract.2.2.2.2.2.1 demoPos "a1a8" [] (by decide)
     (Or.inr (by decide)),
   (c6_normalizer_contract.2.2.2.2.2.2 "f7g7" (by decide)).1⟩

/-! ## C10 -/

lemma fileChar_plain (f : Nat) : sanPlainChar (fileChar f) := by
  have h : fileChar f ∈ ['a', 'b', 'c', 'd', 'e', 'f', 'g', 'h'] := by
    unfold fileChar
    rcases Nat.lt_or_ge f 8 with hf | hf
    · interval_cases f <;> decide
    · rw [List.getD_eq_default]
      · decide
      · simpa using hf
  simp only [List.mem_cons, List.not_mem_nil, or_false] at h
  rcases h with h | h | h | h | h | h | h | h <;> rw [h] <;> decide

lemma rankChar_plain (r : Nat) : sanPlainChar (rankChar r) := by
  have h : rankChar r ∈ ['1', '2', '3', '4', '5', '6', '7', '8'] := by
    unfold rankChar
    rcases Nat.lt_or_ge r 8 with hr | hr
    · interval_cases r <;> decide
    · rw [List.getD_eq_default]
      · decide
      · simpa using hr
  simp only [List.mem_cons, List.not_mem_nil, or_false] at h
  rcases h with h | h | h | h | h | h | h | h <;> rw [h] <;> decide

lemma kindChar_plain (k : PieceKind) : sanPlainChar (kindChar k) := by
  cases k <;> decide

lemma squareChars_plain (s : Nat) : ∀ c ∈ squareChars s, sanPlainChar c := by
  intro c hc
  rcases List.mem_cons.mp hc with rfl | hc
  · exact fileChar_plain _
  · rcases List.mem_cons.mp hc with rfl | hc
    · exact rankChar_plain _
    · cases hc

lemma disambig_plain (ms : List ChessMove) (b : Board) (m : ChessMove)
    (pc : CPiece) : ∀ c ∈ disambig ms b m pc, sanPlainChar c := by
  intro c hc
  simp only [disambig] at hc
  split at hc
  · cases hc
  · split at hc
    · exact squareChars_plain _ c hc
    · split at hc
      · rcases List.mem_cons.mp hc with rfl | hc
        · exact rankChar_plain _
        · cases hc
      · rcases List.mem_cons.mp hc with rfl | hc
        · exact fileChar_plain _
        · cases hc

lemma sanBodyAux_plain (ms : List ChessMove) (p : Position) (m : ChessMove) :
    ∀ c ∈ sanBodyAux ms p m, sanPlainChar c := by
  intro c hc
  unfold sanBodyAux at hc
  rcases hbg : boardGet p.board m.fromSq with _ | pc
  · simp only [hbg] at hc
    cases hc
  · simp only [hbg] at hc
    by_cases hk1 : pc.kind = PieceKind.king ∧
        (fileOf m.toSq : Int) - (fileOf m.fromSq : Int) = 2
    · rw [if_pos hk1] at hc
      fin_cases hc <;> decide
    · rw [if_neg hk1] at hc
      by_cases hk2 : pc.kind = PieceKind.king ∧
          (fileOf m.toSq : Int) - (fileOf m.fromSq : Int) = -2
      · rw [if_pos hk2] at hc
        fin_cases hc <;> decide
      · rw [if_neg hk2] at hc
        rcases List.mem_append.mp hc with h1 | h2
        · rcases List.mem_append.mp h1 with h3 | h4
          · by_cases hpw : pc.kind = PieceKind.pawn
            · rw [if_pos hpw] at h3
              cases h3
            · rw [if_neg hpw] at h3
              rcases List.mem_cons.mp h3 with rfl | h5
              · exact kindChar_plain _
              · exact disambig_plain _ _ _ _ c h5
          · by_cases hcap : isCaptureMove p m = true
            · rw [if_pos hcap] at h4
              rcases List.mem_append.mp h4 with h5 | h6
              · by_cases hpw : pc.kind = PieceKind.pawn
                · rw [if_pos hpw] at h5
                  rcases List.mem_cons.mp h5 with rfl | h7
                  · exact fileChar_plain _
                  · cases h7
                · rw [if_neg hpw] at h5
                  cases h5
              · rcases List.mem_cons.mp h6 with rfl | h7
                · decide
                · cases h7
            · rw [if_neg hcap] at h4
              cases h4
        · exact squareChars_plain _ c h2

lemma cleanChars_eq_self {cs : List Char} (h : ∀ c ∈ cs, sanPlainChar c) :
    cleanChars cs = cs := by
  unfold cleanChars
  rw [List.filter_eq_self]
  intro c hc
  obtain ⟨-, h1, h2, h3, h4⟩ := h c hc
  simp [h1, h2, h3, h4]

lemma cleanChars_append (xs ys : List Char) :
    cleanChars (xs ++ ys) = cleanChars xs ++ cleanChars ys := by
  simp [cleanChars, List.filter_append]

lemma cleanChars_checkChars (p : Position) (m : ChessMove) :
    cleanChars (checkChars p m) = [] := by
  simp only [checkChars]
  split
  · split <;> decide
  · decide

lemma cleanChars_promoChars (m : ChessMove) :
    cleanChars (promoChars m) = promoChars m := by
  obtain ⟨f, t, pr⟩ := m
  rcases pr with _ | k
  · rfl
  · show cleanChars ['=', kindChar k] = ['=', kindChar k]
    cases k <;> decide

lemma clean_sanOf_data (p : Position) (m : ChessMove) :
    (clean (sanOf p m)).data = sanBodyAux (legalMoves p) p m ++ promoChars m := by
  show cleanChars (sanCore (legalMoves p) p m ++ checkChars p m) = _
  rw [cleanChars_append, cleanChars_checkChars, List.append_nil]
  unfold sanCore
  rw [cleanChars_append, cleanChars_eq_self (sanBodyAux_plain _ _ _),
    cleanChars_promoChars]

lemma no_eq_in_sanBody (ms : List ChessMove) (p : Position) (m : ChessMove) :
    '=' ∉ sanBodyAux ms p m :=
  fun hc => (sanBodyAux_plain ms p m '=' hc).1 rfl

/-- C10:: `onDrop` submits every move with the promotion piece fixed
to queen, so when the expected move at the current ply is an
under-promotion (its cleaned SAN ends in `=R`, `=B` or `=N`), no
submission from any square to any square is ever accepted at that ply —
the position, ply and move log cannot change — while `playExpectedMove`
does advance the line. -/
theorem c10_underpromotion_unreachable (st : SessionState) (L : List String)
    (hp : st.ply < L.length) (hok : expectedSeq st = .ok L)
    (hund : ∃ pre c, (clean (L.get ⟨st.ply, hp⟩)).data = pre ++ ['=', c] ∧
      (c = 'R' ∨ c = 'B' ∨ c = 'N')) :
    (∀ src tgt,
      (submitMove st src tgt).2 = false ∧
      (submitMove st src tgt).1.fen = st.fen ∧
      (submitMove st src tgt).1.ply = st.ply ∧
      (submitMove st src tgt).1.coach = st.coach) ∧
    (∀ mv, sanMove st.fen (L.get ⟨st.ply, hp⟩) = some mv →
      (playExpectedMove st).ply = st.ply + 1) := by
  constructor
  · intro src tgt
    rcases hsv : st.solved with _ | _
    · rw [submitMove_of_not_solved _ _ hsv]
      rcases htry : tryMoveFromTo st.fen src tgt (some .queen) with _ | mv
      · rw [onDrop_illegal htry]
        exact ⟨rfl, rfl, rfl, rfl⟩
      · have hcd : correctDrop st (sanOf st.fen mv) = false := by
          rcases hcd : correctDrop st (sanOf st.fen mv) with _ | _
          · rfl
          · exfalso
            obtain ⟨e, hget, hclean⟩ := correctDrop_iff.mp hcd
            rw [expectedListD_eq hok, List.get?_eq_get hp] at hget
            obtain rfl := Option.some.inj hget
            obtain ⟨pre, c, hdata, hc⟩ := hund
            have hdata' : (clean (sanOf st.fen mv)).data = pre ++ ['=', c] := by
              rw [← hclean]
              exact hdata
            rw [clean_sanOf_data] at hdata'
            obtain ⟨-, -, -, hpromo⟩ := tryMoveFromTo_spec htry
            rcases hpromo with hpn | hpq
            · have hemp : promoChars mv = [] := by simp [promoChars, hpn]
              rw [hemp, List.append_nil] at hdata'
              apply no_eq_in_sanBody (legalMoves st.fen) st.fen mv
              rw [hdata']
              simp
            · have hq : promoChars mv = ['=', 'Q'] := by
                simp [promoChars, hpq, kindChar]
              rw [hq] at hdata'
              have hrev := congrArg List.reverse hdata'
              simp only [List.reverse_append, List.reverse_cons, List.reverse_nil,
                List.nil_append, List.cons_append] at hrev
              have hqc : 'Q' = c := (List.cons_eq_cons.mp hrev).1
              rcases hc with rfl | rfl | rfl <;> cases hqc
        rw [onDrop_wrong htry hcd]
        exact ⟨rfl, rfl, rfl, rfl⟩
    · rw [submitMove_of_solved _ _ hsv]
      exact ⟨rfl, rfl, rfl, rfl⟩
  · intro mv hsm
    simp only [playExpectedMove]
    rw [if_neg (by rw [expectedListD_eq hok]; omega)]
    rw [expectedListD_eq hok, getD_eq_get hp, hsm]

/-- Witness for C10: in the rook-under-promotion puzzle (`a8=R`), the
forced-queen submission `a7 → a8` is rejected and changes nothing,
while `playExpectedMove` advances to ply 1. -/
theorem c10_witness :
    (submitMove underPromoInit 48 56).2 = false ∧
    (submitMove underPromoInit 48 56).1.ply = underPromoInit.ply ∧
    (playExpectedMove underPromoInit).ply = underPromoInit.ply + 1 := by
  have h := c10_underpromotion_unreachable underPromoInit ["a8=R+"] (by decide)
    (by decide) ⟨['a', '8'], 'R', by decide, Or.inl rfl⟩
  exact ⟨(h.1 48 56).1, (h.1 48 56).2.2.1, h.2 ⟨48, 56, some .rook⟩ (by decide)⟩

end ChessPuzzleApp
